import Mathlib

/- Formal model of the singly-linked list implementation in `src/linkedlist.c`
(list with head/tail pointers, element count, and a forward-only iterator
supporting live removal).

The C code manipulates heap-allocated `ListNode` cells through raw pointers.
We model the node heap explicitly as an association list from addresses to
nodes, with a fresh-address counter.  `void*` values are modelled as natural
numbers (`Val`), with `NULL = 0`.  Dereferencing a null or unallocated
pointer, and reading past the end of an array buffer, are modelled as the
error `UB.deref`; returning an uninitialized local variable is modelled by
the distinguished result `RVal.undef`.  Loops in the C code are modelled by
fuel-indexed recursion; the fuel supplied at each entry point is sufficient
for every well-formed list, and exhaustion is reported as `UB.fuel`. -/

set_option autoImplicit false

namespace LinkedListC

/-- Model of C `void*` values: a machine pointer, as a number. -/
abbrev Val := Nat

/-- Model of node addresses. -/
abbrev Addr := Nat

/-- The C null pointer. -/
def NULL : Val := 0

/-- Undefined behaviour observed by an operation: dereferencing a null,
freed or unallocated pointer (or an out-of-bounds array read), or fuel
exhaustion of the loop model. -/
inductive UB where
  | deref : UB
  | fuel : UB
deriving DecidableEq

/-- The result of a C function returning `void*`, where the function may
return a local variable that was never assigned: either a well-defined
pointer value, or an indeterminate (uninitialized) value. -/
inductive RVal where
  | undef : RVal
  | val (v : Val) : RVal
deriving DecidableEq

/-- Model of `struct listNode`: one stored value and the address of the next
node (`none` models a null `next` pointer). -/
structure ListNode where
  value : Val
  next : Option Addr
deriving DecidableEq

/-- The heap of allocated `ListNode` cells: an association list from
addresses to nodes, plus a counter supplying fresh addresses. -/
structure Heap where
  nodes : List (Addr × ListNode)
  fresh : Addr
deriving DecidableEq

/-- Reading the node at an address; `none` when the address is not
currently allocated (dereferencing it is undefined behaviour). -/
def Heap.read (h : Heap) (a : Addr) : Option ListNode :=
  (h.nodes.find? (fun p => p.1 == a)).map Prod.snd

/-- Overwriting the (allocated) node at an address. -/
def Heap.write (h : Heap) (a : Addr) (n : ListNode) : Heap :=
  ⟨h.nodes.map (fun p => if p.1 == a then (a, n) else p), h.fresh⟩

/-- `malloc` of a node: returns the fresh address and the extended heap. -/
def Heap.alloc (h : Heap) (n : ListNode) : Addr × Heap :=
  (h.fresh, ⟨(h.fresh, n) :: h.nodes, h.fresh + 1⟩)

/-- `free` of a node: the address becomes unallocated. -/
def Heap.free (h : Heap) (a : Addr) : Heap :=
  ⟨h.nodes.filter (fun p => p.1 != a), h.fresh⟩

/-- Model of `struct linkedList`: head and tail node addresses (null when
empty) and the element count (a C `int`, hence `Int`).  The destructor
field is not part of the state model; the default destructor's effect is
modelled separately by `destructor`. -/
structure LinkedList where
  head : Option Addr
  tail : Option Addr
  size : Int
deriving DecidableEq

/-- Model of `struct iterator`: the next, current and previous node
addresses and the index of the most recently returned element.  The
`list` back-pointer of the C struct is modelled by passing the list
alongside the iterator to the operations that use it. -/
structure Iterator where
  next : Option Addr
  current : Option Addr
  previous : Option Addr
  index : Int
deriving DecidableEq

/-- `l_create`: a new list with no elements (the default destructor is
installed; it is modelled by `destructor` below). -/
def l_create : LinkedList := ⟨none, none, 0⟩

/-- The default `destructor`: frees a value unless it is `NULL`.  Modelled
by the list of (non-list) values it frees. -/
def destructor (value : Val) : List Val :=
  if value ≠ NULL then [value] else []

/-- The internal `equality` predicate body: `element == reference`
(reference identity; the reference argument is NOT dereferenced). -/
def equality (element reference : Val) : Bool :=
  element == reference

/-- `l_addFirst`: allocate a node for the value and make it the new head
(also the tail when the list was empty).  The node's `next` field ends up
pointing at the old head in every path of the C code. -/
def l_addFirst (h : Heap) (l : LinkedList) (value : Val) : Heap × LinkedList :=
  let an := h.alloc ⟨value, l.head⟩
  let tl := if l.size = 0 then some an.1 else l.tail
  (an.2, ⟨some an.1, tl, l.size + 1⟩)

/-- `l_addLast`: allocate a node for the value and append it after the
current tail (dereferenced when the list is nonempty), or install it as
head and tail when the list was empty. -/
def l_addLast (h : Heap) (l : LinkedList) (value : Val) : Except UB (Heap × LinkedList) :=
  let an := h.alloc ⟨value, none⟩
  if l.size ≠ 0 then
    match l.tail with
    | none => .error UB.deref
    | some t =>
      match an.2.read t with
      | none => .error UB.deref
      | some tn =>
        .ok (an.2.write t ⟨tn.value, some an.1⟩, ⟨l.head, some an.1, l.size + 1⟩)
  else
    .ok (an.2, ⟨some an.1, some an.1, l.size + 1⟩)

/-- The `tracker = tracker->next` walk of the C for-loops: advance `k`
steps from a node pointer, dereferencing at each step. -/
def advance (h : Heap) : Option Addr → Nat → Except UB (Option Addr)
  | o, 0 => .ok o
  | none, _ + 1 => .error UB.deref
  | some a, k + 1 =>
    match h.read a with
    | none => .error UB.deref
    | some n => advance h n.next k

/-- `l_add`: insert at an index; index 0 delegates to `l_addFirst`, index
`size` to `l_addLast`, an interior index splices after the predecessor,
and any other index does nothing. -/
def l_add (h : Heap) (l : LinkedList) (value : Val) (index : Int) :
    Except UB (Heap × LinkedList) :=
  if index = 0 then
    .ok (l_addFirst h l value)
  else if index = l.size then
    l_addLast h l value
  else if 0 < index ∧ index < l.size then
    match advance h l.head (index - 1).toNat with
    | .error e => .error e
    | .ok none => .error UB.deref
    | .ok (some t) =>
      match h.read t with
      | none => .error UB.deref
      | some tn =>
        let an := h.alloc ⟨value, tn.next⟩
        .ok (an.2.write t ⟨tn.value, some an.1⟩, ⟨l.head, l.tail, l.size + 1⟩)
  else
    .ok (h, l)

/-- `l_removeFirst`: unlink and free the head node and return its value;
on an empty list the C code returns its never-assigned local `value`
(modelled as `RVal.undef`) and leaves the list alone. -/
def l_removeFirst (h : Heap) (l : LinkedList) : Except UB (RVal × Heap × LinkedList) :=
  if l.size ≠ 0 then
    match l.head with
    | none => .error UB.deref
    | some hd =>
      match h.read hd with
      | none => .error UB.deref
      | some n =>
        let tl := if l.size = 1 then none else l.tail
        .ok (RVal.val n.value, h.free hd, ⟨n.next, tl, l.size - 1⟩)
  else
    .ok (RVal.undef, h, l)

/-- `l_removeLast`: free the tail node, walk to the second-to-last node,
terminate the chain there and make it the new tail; on an empty list the
uninitialized local `value` is returned. -/
def l_removeLast (h : Heap) (l : LinkedList) : Except UB (RVal × Heap × LinkedList) :=
  if l.size ≠ 0 then
    match l.tail with
    | none => .error UB.deref
    | some t =>
      match h.read t with
      | none => .error UB.deref
      | some tn =>
        let h1 := h.free t
        if l.size = 1 then
          .ok (RVal.val tn.value, h1, ⟨none, none, l.size - 1⟩)
        else
          match advance h1 l.head (l.size - 2).toNat with
          | .error e => .error e
          | .ok none => .error UB.deref
          | .ok (some tr) =>
            match h1.read tr with
            | none => .error UB.deref
            | some trn =>
              .ok (RVal.val tn.value, h1.write tr ⟨trn.value, none⟩,
                   ⟨l.head, some tr, l.size - 1⟩)
  else
    .ok (RVal.undef, h, l)

/-- `l_remove`: remove at an index; index 0 delegates to `l_removeFirst`,
index `size - 1` to `l_removeLast`, an interior index bypasses and frees
the node after the predecessor, and any other index returns the
never-assigned local `value` with the list untouched. -/
def l_remove (h : Heap) (l : LinkedList) (index : Int) :
    Except UB (RVal × Heap × LinkedList) :=
  if index = 0 then
    l_removeFirst h l
  else if index = l.size - 1 then
    l_removeLast h l
  else if 0 < index ∧ index < l.size - 1 then
    match advance h l.head (index - 1).toNat with
    | .error e => .error e
    | .ok none => .error UB.deref
    | .ok (some t) =>
      match h.read t with
      | none => .error UB.deref
      | some tn =>
        match tn.next with
        | none => .error UB.deref
        | some old =>
          match h.read old with
          | none => .error UB.deref
          | some od =>
            .ok (RVal.val od.value, (h.write t ⟨tn.value, od.next⟩).free old,
                 ⟨l.head, l.tail, l.size - 1⟩)
  else
    .ok (RVal.undef, h, l)

/-- `l_iterator`: a cursor positioned just before the head. -/
def l_iterator (l : LinkedList) : Iterator :=
  ⟨l.head, none, none, -1⟩

/-- `i_hasNext`: whether an unread node lies ahead. -/
def i_hasNext (it : Iterator) : Bool :=
  it.next.isSome

/-- `i_next`: advance the cursor and return the newly current value, or
return `NULL` leaving the state unchanged when no node lies ahead.
`previous` is only updated when `current` was non-null. -/
def i_next (h : Heap) (it : Iterator) : Except UB (Val × Iterator) :=
  match it.next with
  | none => .ok (NULL, it)
  | some a =>
    match h.read a with
    | none => .error UB.deref
    | some n =>
      let prev := if it.current.isSome then it.current else it.previous
      .ok (n.value, ⟨n.next, some a, prev, it.index + 1⟩)

/-- `i_remove`: when `current` is non-null, bypass it via
`previous->next = next` (dereferencing `previous` unconditionally), free
it, decrement the list size and clear `current`; otherwise return `NULL`
and change nothing.  The C code never touches `list->head` or
`list->tail` here. -/
def i_remove (h : Heap) (l : LinkedList) (it : Iterator) :
    Except UB (Val × Heap × LinkedList × Iterator) :=
  match it.current with
  | none => .ok (NULL, h, l, it)
  | some c =>
    match h.read c with
    | none => .error UB.deref
    | some cn =>
      match it.previous with
      | none => .error UB.deref
      | some p =>
        match h.read p with
        | none => .error UB.deref
        | some pn =>
          .ok (cn.value, (h.write p ⟨pn.value, it.next⟩).free c,
               ⟨l.head, l.tail, l.size - 1⟩, ⟨it.next, none, it.previous, it.index⟩)

/-- `i_delete`: `i_remove` followed by invoking the list's destructor on
the returned value.  The `Val` component is the argument passed to the
destructor, and the `List Val` component is what the default destructor
frees for that argument. -/
def i_delete (h : Heap) (l : LinkedList) (it : Iterator) :
    Except UB (Heap × LinkedList × Iterator × Val × List Val) :=
  match i_remove h l it with
  | .error e => .error e
  | .ok (v, h1, l1, it1) => .ok (h1, l1, it1, v, destructor v)

/-- The `while(i_hasNext(itr))` loop body of `l_removeIf`. -/
def removeIfLoop (P : Val → Bool) : Nat → Heap → LinkedList → Iterator →
    Except UB (Heap × LinkedList)
  | 0, _, _, _ => .error UB.fuel
  | fuel + 1, h, l, it =>
    if i_hasNext it then
      match i_next h it with
      | .error e => .error e
      | .ok (v, it1) =>
        if P v then
          match i_remove h l it1 with
          | .error e => .error e
          | .ok (_, h1, l1, it2) => removeIfLoop P fuel h1 l1 it2
        else
          removeIfLoop P fuel h l it1
    else
      .ok (h, l)

/-- `l_removeIf`: iterate the list, removing every element the predicate
accepts via the iterator's live-removal path. -/
def l_removeIf (h : Heap) (l : LinkedList) (P : Val → Bool) :
    Except UB (Heap × LinkedList) :=
  removeIfLoop P (l.size.toNat + 1) h l (l_iterator l)

/-- `l_removeValue`: `l_removeIf` with the `equality` predicate whose
context is `&value` — the address of the local parameter `value`
(modelled by `paramAddr`), not the value itself; the parameter `value`
is never read by the comparison. -/
def l_removeValue (h : Heap) (l : LinkedList) (value paramAddr : Val) :
    Except UB (Heap × LinkedList) :=
  l_removeIf h l (fun element => equality element paramAddr)

/-- The scan loop of `l_findFirst`: runs while an element remains and no
match has been recorded (`index == -1`). -/
def findFirstLoop (h : Heap) (P : Val → Bool) : Nat → Iterator → Int → Except UB Int
  | 0, _, _ => .error UB.fuel
  | fuel + 1, it, index =>
    if i_hasNext it ∧ index = -1 then
      match i_next h it with
      | .error e => .error e
      | .ok (v, it1) => findFirstLoop h P fuel it1 (if P v then it1.index else index)
    else
      .ok index

/-- `l_findFirst`: index of the first element accepted by the predicate,
`-1` when none is. -/
def l_findFirst (h : Heap) (l : LinkedList) (P : Val → Bool) : Except UB Int :=
  findFirstLoop h P (l.size.toNat + 1) (l_iterator l) (-1)

/-- The scan loop of `l_findLast`: runs to the end of the list, recording
the index of every match. -/
def findLastLoop (h : Heap) (P : Val → Bool) : Nat → Iterator → Int → Except UB Int
  | 0, _, _ => .error UB.fuel
  | fuel + 1, it, index =>
    if i_hasNext it then
      match i_next h it with
      | .error e => .error e
      | .ok (v, it1) => findLastLoop h P fuel it1 (if P v then it1.index else index)
    else
      .ok index

/-- `l_findLast`: index of the last element accepted by the predicate,
`-1` when none is. -/
def l_findLast (h : Heap) (l : LinkedList) (P : Val → Bool) : Except UB Int :=
  findLastLoop h P (l.size.toNat + 1) (l_iterator l) (-1)

/-- `l_firstIndexOf`: `l_findFirst` with the `equality` predicate whose
context is the address `&value` of the local parameter (`paramAddr`). -/
def l_firstIndexOf (h : Heap) (l : LinkedList) (value paramAddr : Val) : Except UB Int :=
  l_findFirst h l (fun element => equality element paramAddr)

/-- The scan loop of `l_matches`: runs while an element remains and no
match has been found. -/
def matchesLoop (h : Heap) (P : Val → Bool) : Nat → Iterator → Bool → Except UB Bool
  | 0, _, _ => .error UB.fuel
  | fuel + 1, it, contains =>
    if i_hasNext it ∧ contains = false then
      match i_next h it with
      | .error e => .error e
      | .ok (v, it1) => matchesLoop h P fuel it1 (contains || P v)
    else
      .ok contains

/-- `l_matches`: whether some element is accepted by the predicate. -/
def l_matches (h : Heap) (l : LinkedList) (P : Val → Bool) : Except UB Bool :=
  matchesLoop h P (l.size.toNat + 1) (l_iterator l) false

/-- `l_contains`: `l_matches` with the `equality` predicate whose context
is the address `&value` of the local parameter (`paramAddr`). -/
def l_contains (h : Heap) (l : LinkedList) (value paramAddr : Val) : Except UB Bool :=
  l_matches h l (fun element => equality element paramAddr)

/-- The copy loop of `l_toArray`: drain the iterator, appending each
value to the array. -/
def toArrayLoop (h : Heap) : Nat → Iterator → List Val → Except UB (List Val)
  | 0, _, _ => .error UB.fuel
  | fuel + 1, it, acc =>
    if i_hasNext it then
      match i_next h it with
      | .error e => .error e
      | .ok (v, it1) => toArrayLoop h fuel it1 (acc ++ [v])
    else
      .ok acc

/-- `l_toArray`: the list's values in order.  (The C buffer is allocated
with room for `size` entries; on a well-formed list the iteration fills
exactly those.) -/
def l_toArray (h : Heap) (l : LinkedList) : Except UB (List Val) :=
  toArrayLoop h (l.size.toNat + 1) (l_iterator l) []

/-- The `for(i = 0; i < size; i++) l_addLast(list, array[i])` loop of
`l_addArray`; reading past the end of the array buffer is undefined
behaviour. -/
def addArrayLoop (array : List Val) (size : Int) : Nat → Int → Heap → LinkedList →
    Except UB (Heap × LinkedList)
  | 0, _, _, _ => .error UB.fuel
  | fuel + 1, i, h, l =>
    if i < size then
      match array.get? i.toNat with
      | none => .error UB.deref
      | some v =>
        match l_addLast h l v with
        | .error e => .error e
        | .ok (h1, l1) => addArrayLoop array size fuel (i + 1) h1 l1
    else
      .ok (h, l)

/-- `l_addArray`: append the first `size` array entries to the list. -/
def l_addArray (h : Heap) (l : LinkedList) (array : List Val) (size : Int) :
    Except UB (Heap × LinkedList) :=
  addArrayLoop array size (size.toNat + 1) 0 h l

/-- `l_fromArray`: a new list holding the first `size` array entries. -/
def l_fromArray (h : Heap) (array : List Val) (size : Int) :
    Except UB (Heap × LinkedList) :=
  l_addArray h l_create array size

/-- The comparison loop of `l_equal`: runs while both iterators have
elements and no mismatch has been seen. -/
def equalLoop (h : Heap) : Nat → Iterator → Iterator → Bool → Except UB Bool
  | 0, _, _, _ => .error UB.fuel
  | fuel + 1, it1, it2, equal =>
    if i_hasNext it1 ∧ i_hasNext it2 ∧ equal = true then
      match i_next h it1 with
      | .error e => .error e
      | .ok (v1, it1a) =>
        match i_next h it2 with
        | .error e => .error e
        | .ok (v2, it2a) => equalLoop h fuel it1a it2a (equal && (v1 == v2))
    else
      .ok equal

/-- `l_equal`: identical sizes and pairwise reference-identical values in
the same order. -/
def l_equal (h : Heap) (l1 l2 : LinkedList) : Except UB Bool :=
  equalLoop h (l1.size.toNat + 1) (l_iterator l1) (l_iterator l2) (l1.size == l2.size)

/-- The chain of `(address, value)` pairs reached by following `next`
pointers from a node pointer down to null. -/
inductive Chain (h : Heap) : Option Addr → List (Addr × Val) → Prop
  | nil : Chain h none []
  | cons {a : Addr} {n : ListNode} {c : List (Addr × Val)} :
      h.read a = some n → Chain h n.next c → Chain h (some a) ((a, n.value) :: c)

/-- Heap well-formedness: allocated addresses are distinct and below the
fresh-address counter. -/
def HWF (h : Heap) : Prop :=
  (h.nodes.map Prod.fst).Nodup ∧ ∀ a ∈ h.nodes.map Prod.fst, a < h.fresh

/-- List well-formedness with chain `c`: the heap is well-formed, the
node chain from `head` is `c`, the size equals its length, and `tail` is
its last address. -/
def WF (h : Heap) (l : LinkedList) (c : List (Addr × Val)) : Prop :=
  HWF h ∧ Chain h l.head c ∧ l.size = c.length ∧ l.tail = (c.map Prod.fst).getLast?

/-- Executable chain computation (with fuel), used by `invariantb`. -/
def chainA (h : Heap) : Option Addr → Nat → Option (List (Addr × Val))
  | none, _ => some []
  | some _, 0 => none
  | some a, fuel + 1 =>
    match h.read a with
    | none => none
    | some n => (chainA h n.next fuel).map (fun c => (a, n.value) :: c)

/-- Executable check of the documented structural invariant:
`head is none ⇔ tail is none ⇔ size == 0`, and following `next` from
`head` exactly `size` times reaches `tail` and then null. -/
def invariantb (h : Heap) (l : LinkedList) : Bool :=
  match chainA h l.head (h.nodes.length + 1) with
  | none => false
  | some c =>
    (l.head.isNone == l.tail.isNone) &&
    (l.head.isNone == decide (l.size = 0)) &&
    decide (l.size = (c.length : Int)) &&
    decide (l.tail = (c.map Prod.fst).getLast?)

/-- Specification-side definition, following the spec's words: the index
of the first element satisfying the predicate, or `-1` when none does. -/
def specFirstMatchIndex (P : Val → Bool) : List Val → Int
  | [] => -1
  | v :: vs =>
    if P v then 0
    else if specFirstMatchIndex P vs = -1 then -1
    else specFirstMatchIndex P vs + 1

/-- Specification-side definition, following the spec's words: the index
of the last element satisfying the predicate, or `-1` when none does. -/
def specLastMatchIndex (P : Val → Bool) : List Val → Int
  | [] => -1
  | v :: vs =>
    if specLastMatchIndex P vs = -1 then (if P v then 0 else -1)
    else specLastMatchIndex P vs + 1

/-- Concrete scenario state: the heap of a one-element list `[10]`. -/
def oneHeap : Heap := ⟨[(0, ⟨10, none⟩)], 1⟩

/-- Concrete scenario state: a one-element list `[10]` in `oneHeap`. -/
def oneList : LinkedList := ⟨some 0, some 0, 1⟩

/-- Concrete scenario state: the heap of a two-element list `[10, 20]`. -/
def twoHeap : Heap := ⟨[(1, ⟨20, none⟩), (0, ⟨10, some 1⟩)], 2⟩

/-- Concrete scenario state: a two-element list `[10, 20]` in `twoHeap`. -/
def twoList : LinkedList := ⟨some 0, some 1, 2⟩

/-- Concrete scenario state: the heap of the list `[1, 2, 2, 3, 2]`. -/
def fiveHeap : Heap :=
  ⟨[(4, ⟨2, none⟩), (3, ⟨3, some 4⟩), (2, ⟨2, some 3⟩), (1, ⟨2, some 2⟩),
    (0, ⟨1, some 1⟩)], 5⟩

/-- Concrete scenario state: the list `[1, 2, 2, 3, 2]` in `fiveHeap`. -/
def fiveList : LinkedList := ⟨some 0, some 4, 5⟩

/-- Concrete scenario state: the heap of a two-element list `[5, 7]`. -/
def pairHeap : Heap := ⟨[(1, ⟨7, none⟩), (0, ⟨5, some 1⟩)], 2⟩

/-- Concrete scenario state: a two-element list `[5, 7]` in `pairHeap`. -/
def pairList : LinkedList := ⟨some 0, some 1, 2⟩

/-- Advancing once over the one-element list and then removing: the
current node is the list's head and `previous` is null. -/
def c1HeadRun : Except UB (Val × Heap × LinkedList × Iterator) := do
  let (_, it1) ← i_next oneHeap (l_iterator oneList)
  i_remove oneHeap oneList it1

/-- Advancing twice over the two-element list and then removing: the
current node is the list's tail. -/
def c1TailRun : Except UB (Val × Heap × LinkedList × Iterator) := do
  let (_, it1) ← i_next twoHeap (l_iterator twoList)
  let (_, it2) ← i_next twoHeap it1
  i_remove twoHeap twoList it2

/-- Building `[10, 20]` from an empty list by two `l_addLast` calls. -/
def c4Build : Except UB (Heap × LinkedList) := do
  let (h1, l1) ← l_addLast ⟨[], 0⟩ l_create 10
  l_addLast h1 l1 20

/-- Building `[10, 20]` from an empty list, then advancing an iterator
twice and removing the current (tail) element through it. -/
def c4Run : Except UB (Heap × LinkedList) := do
  let (h2, l2) ← c4Build
  let (_, it1) ← i_next h2 (l_iterator l2)
  let (_, it2) ← i_next h2 it1
  let (_, h3, l3, _) ← i_remove h2 l2 it2
  pure (h3, l3)

/-! Frame lemmas for the heap model. -/

theorem read_alloc_self (h : Heap) (n : ListNode) :
    (h.alloc n).2.read (h.alloc n).1 = some n := by
  simp [Heap.alloc, Heap.read, List.find?]

theorem read_alloc_ne (h : Heap) (n : ListNode) (a : Addr) (ha : a ≠ h.fresh) :
    (h.alloc n).2.read a = h.read a := by
  have hb : (h.fresh == a) = false := by simpa using Ne.symm ha
  simp [Heap.alloc, Heap.read, List.find?, hb]

theorem fresh_alloc (h : Heap) (n : ListNode) : (h.alloc n).2.fresh = h.fresh + 1 := rfl

theorem fresh_write (h : Heap) (t : Addr) (n : ListNode) : (h.write t n).fresh = h.fresh := rfl

theorem find?_write_aux (ns : List (Addr × ListNode)) (t : Addr) (n : ListNode)
    (a : Addr) (ha : a ≠ t) :
    (ns.map (fun p => if p.1 == t then (t, n) else p)).find? (fun p => p.1 == a) =
      ns.find? (fun p => p.1 == a) := by
  induction ns with
  | nil => rfl
  | cons q ns ih =>
    by_cases hq : q.1 = t
    · have h1 : (q.1 == t) = true := by simpa using hq
      have h2 : (t == a) = false := by simpa using Ne.symm ha
      have h3 : (q.1 == a) = false := by simpa using hq ▸ (Ne.symm ha)
      simp only [List.map_cons, List.find?, h1, h2, h3, if_true]
      exact ih
    · have h1 : (q.1 == t) = false := by simpa using hq
      by_cases hqa : q.1 = a
      · have h2 : (q.1 == a) = true := by simpa using hqa
        simp only [List.map_cons, List.find?, h1, h2, if_false, Bool.false_eq_true]
      · have h2 : (q.1 == a) = false := by simpa using hqa
        simp only [List.map_cons, List.find?, h1, h2, if_false, Bool.false_eq_true]
        exact ih

theorem read_write_ne (h : Heap) (t : Addr) (n : ListNode) (a : Addr) (ha : a ≠ t) :
    (h.write t n).read a = h.read a := by
  simp only [Heap.write, Heap.read]
  rw [find?_write_aux h.nodes t n a ha]

theorem find?_write_self_aux (ns : List (Addr × ListNode)) (t : Addr) (n : ListNode)
    (hmem : t ∈ ns.map Prod.fst) :
    (ns.map (fun p => if p.1 == t then (t, n) else p)).find? (fun p => p.1 == t) =
      some (t, n) := by
  induction ns with
  | nil => simp at hmem
  | cons q ns ih =>
    by_cases hq : q.1 = t
    · have h1 : (q.1 == t) = true := by simpa using hq
      simp [List.find?, h1]
    · have h1 : (q.1 == t) = false := by simpa using hq
      have hmem2 : t ∈ ns.map Prod.fst := by
        simp only [List.map_cons, List.mem_cons] at hmem
        rcases hmem with h | h
        · exact absurd h.symm hq
        · exact h
      simp only [List.map_cons, List.find?, h1, if_false, Bool.false_eq_true]
      exact ih hmem2

theorem read_write_self (h : Heap) (t : Addr) (n : ListNode)
    (hmem : t ∈ h.nodes.map Prod.fst) : (h.write t n).read t = some n := by
  simp only [Heap.write, Heap.read]
  rw [find?_write_self_aux h.nodes t n hmem]
  rfl

theorem read_free_ne (h : Heap) (t a : Addr) (ha : a ≠ t) :
    (h.free t).read a = h.read a := by
  simp only [Heap.free, Heap.read]
  obtain ⟨ns, f⟩ := h
  simp only
  induction ns with
  | nil => rfl
  | cons q ns ih =>
    by_cases hq : q.1 = t
    · have h1 : (q.1 != t) = false := by simp [hq]
      have h2 : (q.1 == a) = false := by simpa using hq ▸ fun e => ha e.symm
      simp only [List.filter, List.find?, h1, h2, Bool.false_eq_true, if_false]
      exact ih
    · have h1 : (q.1 != t) = true := by simpa using hq
      by_cases hqa : q.1 = a
      · have h2 : (q.1 == a) = true := by simpa using hqa
        simp only [List.filter, List.find?, h1, h2]
      · have h2 : (q.1 == a) = false := by simpa using hqa
        simp only [List.filter, List.find?, h1, h2, Bool.false_eq_true, if_false]
        exact ih

theorem read_mem (h : Heap) (a : Addr) (n : ListNode) (hr : h.read a = some n) :
    a ∈ h.nodes.map Prod.fst := by
  simp only [Heap.read] at hr
  rcases hf : h.nodes.find? (fun p => p.1 == a) with _ | p
  · rw [hf] at hr; simp at hr
  · have hmem := List.mem_of_find?_eq_some hf
    have hpa := List.find?_some hf
    simp only [beq_iff_eq] at hpa
    exact hpa ▸ List.mem_map_of_mem Prod.fst hmem

theorem keys_write (h : Heap) (t : Addr) (n : ListNode) :
    (h.write t n).nodes.map Prod.fst = h.nodes.map Prod.fst := by
  simp only [Heap.write, List.map_map]
  apply List.map_congr_left
  intro p _
  by_cases hp : p.1 = t
  · simp [hp]
  · simp [hp]

theorem hwf_alloc (h : Heap) (n : ListNode) (hw : HWF h) : HWF (h.alloc n).2 := by
  obtain ⟨hnd, hlt⟩ := hw
  constructor
  · show ((h.fresh, n) :: h.nodes).map Prod.fst |>.Nodup
    simp only [List.map_cons, List.nodup_cons]
    exact ⟨fun hmem => absurd (hlt _ hmem) (lt_irrefl _), hnd⟩
  · show ∀ a ∈ ((h.fresh, n) :: h.nodes).map Prod.fst, a < h.fresh + 1
    intro a ha
    simp only [List.map_cons, List.mem_cons] at ha
    rcases ha with rfl | ha
    · exact Nat.lt_succ_self _
    · exact Nat.lt_succ_of_lt (hlt a ha)

theorem hwf_write (h : Heap) (t : Addr) (n : ListNode) (hw : HWF h) :
    HWF (h.write t n) := by
  obtain ⟨hnd, hlt⟩ := hw
  constructor
  · rw [keys_write]; exact hnd
  · intro a ha
    rw [keys_write] at ha
    simpa [fresh_write] using hlt a ha

/-! Lemmas about node chains. -/

theorem chain_nil_inv {h : Heap} {o : Option Addr} (hc : Chain h o []) : o = none := by
  cases hc; rfl

theorem chain_none_inv {h : Heap} {c : List (Addr × Val)} (hc : Chain h none c) :
    c = [] := by
  cases hc; rfl

theorem chain_mono {h h' : Heap} {o : Option Addr} {c : List (Addr × Val)}
    (hc : Chain h o c) (hp : ∀ p ∈ c, h'.read p.1 = h.read p.1) : Chain h' o c := by
  induction hc with
  | nil => exact Chain.nil
  | @cons a n cc hr _ ih =>
    exact Chain.cons (by rw [hp (a, n.value) (by simp)]; exact hr)
      (ih fun p hm => hp p (by simp [hm]))

theorem chain_lt_fresh {h : Heap} (hw : HWF h) {o : Option Addr} {c : List (Addr × Val)}
    (hc : Chain h o c) : ∀ p ∈ c, p.1 < h.fresh := by
  induction hc with
  | nil => simp
  | cons hr _ ih =>
    intro p hp
    rcases List.mem_cons.mp hp with rfl | hp
    · exact hw.2 _ (read_mem h _ _ hr)
    · exact ih p hp

theorem chain_last {h : Heap} {o : Option Addr} {c : List (Addr × Val)} {t : Addr}
    (hc : Chain h o c) (hl : (c.map Prod.fst).getLast? = some t) :
    ∃ tn : ListNode, h.read t = some tn ∧ tn.next = none := by
  induction hc with
  | nil => simp at hl
  | @cons a n cc hr hrest ih =>
    rcases hcc : cc with _ | ⟨q, cc2⟩
    · subst hcc
      have hnn : n.next = none := chain_nil_inv hrest
      simp only [List.map_cons, List.map_nil, List.getLast?_singleton,
        Option.some.injEq] at hl
      exact ⟨n, hl ▸ hr, hnn⟩
    · subst hcc
      refine ih ?_
      simpa [List.getLast?_cons_cons] using hl

theorem mem_of_getLast?_eq_some {α : Type} : ∀ {l : List α} {a : α},
    l.getLast? = some a → a ∈ l
  | [], _, h => by simp at h
  | [x], a, h => by
    simp only [List.getLast?_singleton, Option.some.injEq] at h
    simp [h]
  | x :: y :: l, a, h => by
    rw [List.getLast?_cons_cons] at h
    exact List.mem_cons_of_mem x (mem_of_getLast?_eq_some h)

theorem chain_snoc {h : Heap} {t : Addr} {tn : ListNode} {v : Val}
    (hw : HWF h) (ht : h.read t = some tn) (htn : tn.next = none) :
    ∀ {o : Option Addr} {c : List (Addr × Val)}, Chain h o c →
      (c.map Prod.fst).getLast? = some t →
      Chain ((h.alloc ⟨v, none⟩).2.write t ⟨tn.value, some h.fresh⟩) o
        (c ++ [(h.fresh, v)]) := by
  have htlt : t < h.fresh := hw.2 t (read_mem _ _ _ ht)
  have htne : t ≠ h.fresh := ne_of_lt htlt
  have hfreshrd : ((h.alloc ⟨v, none⟩).2.write t ⟨tn.value, some h.fresh⟩).read h.fresh =
      some ⟨v, none⟩ := by
    rw [read_write_ne _ _ _ _ (Ne.symm htne)]
    exact read_alloc_self h ⟨v, none⟩
  have htmem : t ∈ (h.alloc ⟨v, none⟩).2.nodes.map Prod.fst := by
    apply read_mem _ _ tn
    rw [read_alloc_ne _ _ _ htne]
    exact ht
  intro o c hc
  induction hc with
  | nil => intro hl; simp at hl
  | @cons a n cc hr hrest ih =>
    intro hl
    rcases hcc : cc with _ | ⟨q, cc2⟩
    · subst hcc
      have hat : a = t := by simpa using hl
      subst hat
      have hn : n = tn := Option.some.inj (hr.symm.trans ht)
      subst hn
      show Chain _ (some a) ((a, n.value) :: [(h.fresh, v)])
      refine Chain.cons (n := ⟨n.value, some h.fresh⟩) (read_write_self _ _ _ htmem) ?_
      exact Chain.cons (n := ⟨v, none⟩) hfreshrd Chain.nil
    · subst hcc
      have hane : a ≠ t := by
        intro e
        subst e
        have hn : n = tn := Option.some.inj (hr.symm.trans ht)
        subst hn
        rw [htn] at hrest
        exact absurd (chain_none_inv hrest) (by simp)
      have halt : a < h.fresh := hw.2 a (read_mem _ _ _ hr)
      have hard : ((h.alloc ⟨v, none⟩).2.write t ⟨tn.value, some h.fresh⟩).read a =
          some n := by
        rw [read_write_ne _ _ _ _ hane, read_alloc_ne _ _ _ (ne_of_lt halt)]
        exact hr
      refine Chain.cons (n := n) hard ?_
      refine ih ?_
      simpa [List.getLast?_cons_cons] using hl

theorem addLast_ok {h : Heap} {l : LinkedList} {c : List (Addr × Val)} (v : Val)
    (hwf : WF h l c) :
    ∃ h2 : Heap, ∃ l2 : LinkedList,
      l_addLast h l v = .ok (h2, l2) ∧
      WF h2 l2 (c ++ [(h.fresh, v)]) ∧
      h2.fresh = h.fresh + 1 ∧
      (∀ a : Addr, a ∉ c.map Prod.fst → a ≠ h.fresh → h2.read a = h.read a) := by
  obtain ⟨hw, hch, hsz, htl⟩ := hwf
  by_cases h0 : l.size = 0
  · have hcl : c.length = 0 := by
      have hl0 : (c.length : Int) = 0 := by rw [← hsz]; exact h0
      exact_mod_cast hl0
    have hc0 : c = [] := List.length_eq_zero.mp hcl
    subst hc0
    refine ⟨(h.alloc ⟨v, none⟩).2, ⟨some h.fresh, some h.fresh, l.size + 1⟩, ?_, ?_, rfl, ?_⟩
    · simp [l_addLast, h0, Heap.alloc]
    · refine ⟨hwf_alloc h _ hw, ?_, ?_, ?_⟩
      · show Chain _ (some h.fresh) ([] ++ [(h.fresh, v)])
        exact Chain.cons (n := ⟨v, none⟩) (read_alloc_self h ⟨v, none⟩) Chain.nil
      · simp [h0]
      · simp
    · intro a _ hane
      exact read_alloc_ne h _ a hane
  · have hcne : (c.map Prod.fst).getLast?.isSome := by
      rcases hgl : (c.map Prod.fst).getLast? with _ | t
      · rw [List.getLast?_eq_none_iff] at hgl
        simp only [List.map_eq_nil_iff] at hgl
        subst hgl
        simp at hsz
        exact absurd hsz h0
      · rfl
    obtain ⟨t, htt⟩ := Option.isSome_iff_exists.mp hcne
    obtain ⟨tn, htr, htnn⟩ := chain_last hch htt
    have htlt : t < h.fresh := hw.2 t (read_mem _ _ _ htr)
    have htne : t ≠ h.fresh := ne_of_lt htlt
    have hr1 : (h.alloc ⟨v, none⟩).2.read t = some tn := by
      rw [read_alloc_ne _ _ _ htne]
      exact htr
    have htmem : t ∈ c.map Prod.fst := mem_of_getLast?_eq_some htt
    refine ⟨(h.alloc ⟨v, none⟩).2.write t ⟨tn.value, some h.fresh⟩,
           ⟨l.head, some h.fresh, l.size + 1⟩, ?_, ?_, rfl, ?_⟩
    · simp only [l_addLast, h0, htl.trans htt, hr1, ne_eq, not_false_eq_true, if_true]
      rfl
    · refine ⟨hwf_write _ _ _ (hwf_alloc h _ hw), ?_, ?_, ?_⟩
      · exact chain_snoc hw htr htnn hch htt
      · simp only [List.length_append, List.length_singleton]
        omega
      · simp [List.getLast?_concat]
    · intro a hanotin hane
      rw [read_write_ne _ _ _ _ (fun e => hanotin (by rw [e]; exact htmem)),
        read_alloc_ne _ _ _ hane]

theorem addArrayLoop_ok (array : List Val) :
    ∀ (fuel : Nat) (i : Int) (h : Heap) (l : LinkedList) (c : List (Addr × Val)),
      WF h l c → 0 ≤ i → array.length - i.toNat < fuel →
      ∃ r : Heap × LinkedList × List (Addr × Val),
        addArrayLoop array (array.length : Int) fuel i h l = .ok (r.1, r.2.1) ∧
        WF r.1 r.2.1 r.2.2 ∧
        r.2.2.map Prod.snd = c.map Prod.snd ++ array.drop i.toNat ∧
        (∀ a : Addr, a < h.fresh → a ∉ c.map Prod.fst → r.1.read a = h.read a) ∧
        h.fresh ≤ r.1.fresh ∧
        (∀ p ∈ r.2.2, p.1 ∈ c.map Prod.fst ∨ h.fresh ≤ p.1) := by
  intro fuel
  induction fuel with
  | zero => intro i h l c _ _ hfu; omega
  | succ fuel ih =>
    intro i h l c hwf hi hfu
    by_cases hlt : i < (array.length : Int)
    · have hlen : i.toNat < array.length := by omega
      obtain ⟨v, hv⟩ : ∃ v, array.get? i.toNat = some v :=
        ⟨array.get ⟨i.toNat, hlen⟩, List.get?_eq_get hlen⟩
      obtain ⟨h2, l2, hok, hwf2, hfr2, hframe2⟩ := addLast_ok v hwf
      obtain ⟨r, hokr, hwfr, hvalsr, hframer, hfreshr, hregr⟩ :=
        ih (i + 1) h2 l2 (c ++ [(h.fresh, v)]) hwf2 (by omega) (by omega)
      refine ⟨r, ?_, hwfr, ?_, ?_, ?_, ?_⟩
      · simp only [addArrayLoop, if_pos hlt, hv, hok]
        exact hokr
      · rw [hvalsr]
        have hd : array.drop i.toNat = v :: array.drop (i.toNat + 1) := by
          rw [List.drop_eq_getElem_cons hlen]
          have : array[i.toNat] = v := by
            have := List.get?_eq_get hlen
            rw [hv] at this
            exact (Option.some.inj this).symm
          rw [this]
        have he : (i + 1).toNat = i.toNat + 1 := by omega
        rw [he, hd]
        simp
      · intro a halt hanotin
        rw [hframer a (by rw [hfr2]; exact Nat.lt_succ_of_lt halt)
            (by
              simp only [List.map_append, List.mem_append, List.map_cons, List.map_nil,
                List.mem_singleton, not_or]
              exact ⟨hanotin, ne_of_lt halt⟩),
          hframe2 a hanotin (ne_of_lt halt)]
      · rw [hfr2] at hfreshr
        exact le_trans (Nat.le_succ _) hfreshr
      · intro p hp
        rcases hregr p hp with hmem | hge
        · simp only [List.map_append, List.mem_append, List.map_cons, List.map_nil,
            List.mem_singleton] at hmem
          rcases hmem with hmem | heq
          · exact Or.inl hmem
          · exact Or.inr (le_of_eq heq.symm)
        · rw [hfr2] at hge
          exact Or.inr (le_trans (Nat.le_succ _) hge)
    · refine ⟨(h, l, c), ?_, hwf, ?_, fun a _ _ => rfl, le_refl _, ?_⟩
      · simp only [addArrayLoop, if_neg hlt]
      · rw [List.drop_eq_nil_of_le (by omega), List.append_nil]
      · exact fun p hp => Or.inl (List.mem_map_of_mem Prod.fst hp)
theorem toArrayLoop_ok {h : Heap} {o : Option Addr} {c : List (Addr × Val)}
    (hc : Chain h o c) :
    ∀ (it : Iterator) (fuel : Nat) (acc : List Val), it.next = o → c.length < fuel →
      toArrayLoop h fuel it acc = .ok (acc ++ c.map Prod.snd) := by
  induction hc with
  | nil =>
    intro it fuel acc hit hfu
    obtain ⟨f, rfl⟩ : ∃ f, fuel = f + 1 := ⟨fuel - 1, by omega⟩
    simp [toArrayLoop, i_hasNext, hit]
  | @cons a n cc hr hrest ih =>
    intro it fuel acc hit hfu
    obtain ⟨f, rfl⟩ : ∃ f, fuel = f + 1 := ⟨fuel - 1, by omega⟩
    have hn : i_next h it = .ok (n.value,
        ⟨n.next, some a, if it.current.isSome then it.current else it.previous,
         it.index + 1⟩) := by
      simp [i_next, hit, hr]
    simp only [toArrayLoop, i_hasNext, hit, Option.isSome_some, if_true, hn]
    rw [ih _ f (acc ++ [n.value]) rfl (by simpa using Nat.lt_of_succ_lt_succ hfu)]
    simp

theorem equalLoop_ok {h : Heap} :
    ∀ {c1 : List (Addr × Val)} {o1 : Option Addr}, Chain h o1 c1 →
      ∀ {c2 : List (Addr × Val)} {o2 : Option Addr}, Chain h o2 c2 →
      ∀ (it1 it2 : Iterator) (fuel : Nat),
      it1.next = o1 → it2.next = o2 → c1.map Prod.snd = c2.map Prod.snd →
      c1.length < fuel → equalLoop h fuel it1 it2 true = .ok true := by
  intro c1 o1 hc1
  induction hc1 with
  | nil =>
    intro c2 o2 hc2 it1 it2 fuel h1 h2 hv hfu
    obtain ⟨f, rfl⟩ : ∃ f, fuel = f + 1 := ⟨fuel - 1, by omega⟩
    simp [equalLoop, i_hasNext, h1]
  | @cons a n cc hr hrest ih =>
    intro c2 o2 hc2 it1 it2 fuel h1 h2 hv hfu
    cases hc2 with
    | nil => simp at hv
    | @cons b m cc2 hrb hrestb =>
      obtain ⟨f, rfl⟩ : ∃ f, fuel = f + 1 := ⟨fuel - 1, by omega⟩
      simp only [List.map_cons, List.cons.injEq] at hv
      have hn1 : i_next h it1 = .ok (n.value,
          ⟨n.next, some a, if it1.current.isSome then it1.current else it1.previous,
           it1.index + 1⟩) := by
        simp [i_next, h1, hr]
      have hn2 : i_next h it2 = .ok (m.value,
          ⟨m.next, some b, if it2.current.isSome then it2.current else it2.previous,
           it2.index + 1⟩) := by
        simp [i_next, h2, hrb]
      have hbeq : (n.value == m.value) = true := by simp [hv.1]
      simp only [equalLoop, i_hasNext, h1, h2, Option.isSome_some, true_and, and_true,
        if_true, hn1, hn2, Bool.true_and, hbeq]
      exact ih hrestb _ _ f rfl rfl hv.2 (by simpa using Nat.lt_of_succ_lt_succ hfu)

theorem specFirstMatchIndex_cases (P : Val → Bool) (vs : List Val) :
    specFirstMatchIndex P vs = -1 ∨ 0 ≤ specFirstMatchIndex P vs := by
  induction vs with
  | nil => left; rfl
  | cons v vs ih =>
    simp only [specFirstMatchIndex]
    split
    · right; omega
    · split
      · left; rfl
      · right; omega

theorem specLastMatchIndex_cases (P : Val → Bool) (vs : List Val) :
    specLastMatchIndex P vs = -1 ∨ 0 ≤ specLastMatchIndex P vs := by
  induction vs with
  | nil => left; rfl
  | cons v vs ih =>
    simp only [specLastMatchIndex]
    split
    · split
      · right; omega
      · left; rfl
    · right
      rcases ih with h1 | h1
      · simp_all
      · omega

theorem findFirstLoop_stop (h : Heap) (P : Val → Bool) (fuel : Nat) (it : Iterator)
    (idx : Int) (hidx : idx ≠ -1) (hfu : 0 < fuel) :
    findFirstLoop h P fuel it idx = .ok idx := by
  obtain ⟨f, rfl⟩ : ∃ f, fuel = f + 1 := ⟨fuel - 1, by omega⟩
  simp [findFirstLoop, hidx]

theorem findFirstLoop_ok {h : Heap} {P : Val → Bool} :
    ∀ {o : Option Addr} {c : List (Addr × Val)}, Chain h o c →
      ∀ (it : Iterator) (fuel : Nat), it.next = o → c.length < fuel → -1 ≤ it.index →
      findFirstLoop h P fuel it (-1) =
        .ok (if specFirstMatchIndex P (c.map Prod.snd) = -1 then -1
             else it.index + 1 + specFirstMatchIndex P (c.map Prod.snd)) := by
  intro o c hc
  induction hc with
  | nil =>
    intro it fuel hit hfu hidx
    obtain ⟨f, rfl⟩ : ∃ f, fuel = f + 1 := ⟨fuel - 1, by omega⟩
    simp [findFirstLoop, i_hasNext, hit, specFirstMatchIndex]
  | @cons a n cc hr hrest ih =>
    intro it fuel hit hfu hidx
    obtain ⟨f, rfl⟩ : ∃ f, fuel = f + 1 := ⟨fuel - 1, by omega⟩
    have hn : i_next h it = .ok (n.value,
        ⟨n.next, some a, if it.current.isSome then it.current else it.previous,
         it.index + 1⟩) := by
      simp [i_next, hit, hr]
    by_cases hp : P n.value
    · simp only [findFirstLoop, i_hasNext, hit, Option.isSome_some, true_and, if_true, hn, hp]
      rw [findFirstLoop_stop h P f _ (it.index + 1) (by omega)
        (by simp only [List.length_cons] at hfu; omega)]
      simp only [List.map_cons, specFirstMatchIndex, hp, if_true]
      simp only [Except.ok.injEq]
      omega
    · simp only [findFirstLoop, i_hasNext, hit, Option.isSome_some, true_and, if_true, hn,
        hp, if_false, Bool.false_eq_true]
      rw [ih _ f rfl (by simpa using Nat.lt_of_succ_lt_succ hfu)
        (by show -1 ≤ it.index + 1; omega)]
      rcases specFirstMatchIndex_cases P (cc.map Prod.snd) with he | hge
      · simp [List.map_cons, specFirstMatchIndex, hp, he]
      · have hne : specFirstMatchIndex P (cc.map Prod.snd) ≠ -1 := by omega
        simp only [List.map_cons, specFirstMatchIndex, hp, if_false, Bool.false_eq_true,
          hne, if_neg hne, Except.ok.injEq]
        split
        · omega
        · omega

theorem findLastLoop_ok {h : Heap} {P : Val → Bool} :
    ∀ {o : Option Addr} {c : List (Addr × Val)}, Chain h o c →
      ∀ (it : Iterator) (fuel : Nat) (idx : Int), it.next = o → c.length < fuel →
      findLastLoop h P fuel it idx =
        .ok (if specLastMatchIndex P (c.map Prod.snd) = -1 then idx
             else it.index + 1 + specLastMatchIndex P (c.map Prod.snd)) := by
  intro o c hc
  induction hc with
  | nil =>
    intro it fuel idx hit hfu
    obtain ⟨f, rfl⟩ : ∃ f, fuel = f + 1 := ⟨fuel - 1, by omega⟩
    simp [findLastLoop, i_hasNext, hit, specLastMatchIndex]
  | @cons a n cc hr hrest ih =>
    intro it fuel idx hit hfu
    obtain ⟨f, rfl⟩ : ∃ f, fuel = f + 1 := ⟨fuel - 1, by omega⟩
    have hn : i_next h it = .ok (n.value,
        ⟨n.next, some a, if it.current.isSome then it.current else it.previous,
         it.index + 1⟩) := by
      simp [i_next, hit, hr]
    simp only [findLastLoop, i_hasNext, hit, Option.isSome_some, if_true, hn]
    rw [ih _ f _ rfl (by simpa using Nat.lt_of_succ_lt_succ hfu)]
    rcases specLastMatchIndex_cases P (cc.map Prod.snd) with he | hge
    · by_cases hp : P n.value
      · simp only [List.map_cons, specLastMatchIndex, he, hp, if_true, Except.ok.injEq]
        split
        · omega
        · omega
      · simp only [List.map_cons, specLastMatchIndex, he, hp, if_false, Bool.false_eq_true,
          Except.ok.injEq]
        split
        · omega
        · omega
    · have hne : specLastMatchIndex P (cc.map Prod.snd) ≠ -1 := by omega
      simp only [List.map_cons, specLastMatchIndex, if_neg hne, Except.ok.injEq]
      split
      · omega
      · omega

/-! Claim theorems. -/

/-- C1: the claim states that `i_remove` unlinks the current node by
pointing `previous.next` at `next`, or updates the list's head reference
when the current node is the head, and updates the list's tail reference
to `previous` when the current node is the tail.  The code does neither:
when the current node is the head it dereferences the null `previous`
pointer (first conjunct: removing the only element of `[10]` after one
advance is undefined behaviour), and when the current node is the tail it
leaves `list->tail` pointing at the freed node (second conjunct: after
removing the tail of `[10, 20]` the list still has `tail = some 1`, and
the third conjunct shows address 1 is no longer allocated). -/
theorem c1_iremove_no_head_tail_update :
    c1HeadRun = .error UB.deref ∧
    c1TailRun = .ok (20, ⟨[(0, ⟨10, none⟩)], 2⟩, ⟨some 0, some 1, 1⟩,
      ⟨none, none, some 0, 1⟩) ∧
    (⟨[(0, ⟨10, none⟩)], 2⟩ : Heap).read 1 = none := by
  refine ⟨rfl, rfl, rfl⟩

/-- C2: the claim states that `l_removeIf` filters out exactly the
elements matching the predicate.  It fails on any list whose first
element matches: `i_remove` then dereferences the null `previous`
pointer.  On the one-element list `[10]` with an always-true predicate
the code hits undefined behaviour instead of producing the empty list. -/
theorem c2_removeif_head_match_crash :
    l_removeIf oneHeap oneList (fun _ => true) = .error UB.deref := rfl

/-- C3: the claim states that `l_removeValue`, `l_contains` and
`l_firstIndexOf` match elements reference-identical to the value `v`.
The code passes `&value` (the address of the parameter, modelled by 100)
as the predicate context, and `equality` compares the element with that
address without dereferencing, so on the list `[1, 2, 2, 3, 2]` (last
conjunct) `removeValue(2)` removes nothing (the claim demands `[1, 3]`),
`contains(2)` is false and `firstIndexOf(2)` is `-1`. -/
theorem c3_removevalue_matches_param_address :
    l_removeValue fiveHeap fiveList 2 100 = .ok (fiveHeap, fiveList) ∧
    l_contains fiveHeap fiveList 2 100 = .ok false ∧
    l_firstIndexOf fiveHeap fiveList 2 100 = .ok (-1) ∧
    (chainA fiveHeap fiveList.head 6).map (fun c => c.map Prod.snd) =
      some [1, 2, 2, 3, 2] := by
  refine ⟨rfl, rfl, rfl, rfl⟩

/-- C4: the claim states the structural invariant (`head` null iff `tail`
null iff `size = 0`, and the chain from `head` has length `size` ending
at `tail`) holds after any sequence of valid operations.  Building
`[10, 20]` by two `l_addLast` calls satisfies the invariant (first
conjunct), but advancing an iterator twice and removing the tail through
it leaves `tail` pointing at the freed node, violating the invariant
(second conjunct). -/
theorem c4_invariant_broken_by_iremove :
    c4Build.map (fun p => invariantb p.1 p.2) = .ok true ∧
    c4Run.map (fun p => invariantb p.1 p.2) = .ok false := by
  refine ⟨rfl, rfl⟩

/-- C5: the claim states that `l_removeFirst` / `l_removeLast` on an
empty list and `l_remove` on an out-of-range index return the NULL
sentinel and leave the size unchanged.  The size (indeed the whole
state) is unchanged, but the returned value is the never-assigned local
`value` — an indeterminate value (`RVal.undef`), not NULL (final
conjunct: the two are distinct observations). -/
theorem c5_remove_returns_uninitialized :
    l_removeFirst ⟨[], 0⟩ l_create = .ok (RVal.undef, ⟨[], 0⟩, l_create) ∧
    l_removeLast ⟨[], 0⟩ l_create = .ok (RVal.undef, ⟨[], 0⟩, l_create) ∧
    l_remove oneHeap oneList 7 = .ok (RVal.undef, oneHeap, oneList) ∧
    l_remove oneHeap oneList (-3) = .ok (RVal.undef, oneHeap, oneList) ∧
    RVal.undef ≠ RVal.val NULL := by
  refine ⟨rfl, rfl, rfl, rfl, by decide⟩

/-- C6: after a successful `i_next` and a successful `i_remove`, a second
`i_remove` with no intervening advance is a no-op: it returns the NULL
sentinel and leaves the heap, the list (hence its size) and the iterator
exactly as they were after the first removal. -/
theorem c6_second_iremove_noop (h : Heap) (l : LinkedList) (it : Iterator)
    (v1 : Val) (it1 : Iterator) (hn : i_next h it = .ok (v1, it1))
    (v2 : Val) (h2 : Heap) (l2 : LinkedList) (it2 : Iterator)
    (hr : i_remove h l it1 = .ok (v2, h2, l2, it2)) :
    i_remove h2 l2 it2 = .ok (NULL, h2, l2, it2) := by
  have hcur : it2.current = none := by
    cases hc : it1.current with
    | none =>
      simp only [i_remove, hc] at hr
      simp only [Except.ok.injEq, Prod.mk.injEq] at hr
      rw [← hr.2.2.2]
      exact hc
    | some cc =>
      simp only [i_remove, hc] at hr
      cases hrc : h.read cc with
      | none => simp [hrc] at hr
      | some cn =>
        simp only [hrc] at hr
        cases hp : it1.previous with
        | none => simp [hp] at hr
        | some p =>
          simp only [hp] at hr
          cases hrp : h.read p with
          | none => simp [hrp] at hr
          | some pn =>
            simp only [hrp] at hr
            simp only [Except.ok.injEq, Prod.mk.injEq] at hr
            rw [← hr.2.2.2]
  simp [i_remove, hcur]

/-- Witness for C6 at a concrete input: the two-element list `[10, 20]`
with the iterator already advanced once; advancing once more and removing
succeeds, and the second removal returns NULL changing nothing. -/
theorem c6_second_iremove_noop_witness :
    i_remove ⟨[(0, ⟨10, none⟩)], 2⟩ ⟨some 0, some 1, 1⟩ ⟨none, none, some 0, 1⟩ =
      .ok (NULL, ⟨[(0, ⟨10, none⟩)], 2⟩, ⟨some 0, some 1, 1⟩,
           ⟨none, none, some 0, 1⟩) :=
  c6_second_iremove_noop twoHeap twoList ⟨some 1, some 0, none, 0⟩ 20
    ⟨none, some 1, some 0, 1⟩ rfl 20 ⟨[(0, ⟨10, none⟩)], 2⟩ ⟨some 0, some 1, 1⟩
    ⟨none, none, some 0, 1⟩ rfl

/-- C7: `l_add` with an out-of-range index (negative or greater than the
size) leaves the heap and the list completely unchanged and signals no
error; at index 0 it behaves as `l_addFirst`, and at `index = size` it
behaves as `l_addLast` (on the empty-list corner `index = size = 0` the
delegation goes through `l_addFirst`, which produces the same state when
`head` is null, as it is on every well-formed empty list). -/
theorem c7_add_bounds (h : Heap) (l : LinkedList) (v : Val) (index : Int) :
    (0 ≤ l.size → index < 0 ∨ index > l.size → l_add h l v index = .ok (h, l)) ∧
    (l_add h l v 0 = .ok (l_addFirst h l v)) ∧
    (index = l.size → (l.size = 0 → l.head = none) →
      l_add h l v index = l_addLast h l v) := by
  refine ⟨?_, ?_, ?_⟩
  · intro hs hoob
    simp only [l_add]
    rw [if_neg (by omega), if_neg (by omega), if_neg (by omega)]
  · simp [l_add]
  · intro hidx hhead
    by_cases h0 : l.size = 0
    · have hi0 : index = 0 := by omega
      subst hi0
      simp [l_add, l_addFirst, l_addLast, h0, hhead h0]
    · rw [hidx]
      simp [l_add, if_neg h0]

/-- Witness for C7 at a concrete input: on the empty list, `l_add` at
index 5 is a silent no-op, and at index 0 it agrees with both
`l_addFirst` and `l_addLast`. -/
theorem c7_add_bounds_witness :
    l_add ⟨[], 0⟩ l_create 7 5 = .ok (⟨[], 0⟩, l_create) ∧
    l_add ⟨[], 0⟩ l_create 7 0 = .ok (l_addFirst ⟨[], 0⟩ l_create 7) ∧
    l_add ⟨[], 0⟩ l_create 7 0 = l_addLast ⟨[], 0⟩ l_create 7 :=
  ⟨(c7_add_bounds ⟨[], 0⟩ l_create 7 5).1 (by decide) (Or.inr (by decide)),
   (c7_add_bounds ⟨[], 0⟩ l_create 7 0).2.1,
   (c7_add_bounds ⟨[], 0⟩ l_create 7 0).2.2 rfl (fun _ => rfl)⟩

/-- C10: for an iterator with no pending removal (`current` is null),
`i_delete` still invokes the list's destructor, passing it the NULL
sentinel returned by `i_remove` (the `Val` component of the result), and
the default destructor ignores NULL, freeing nothing; the state is left
unchanged. -/
theorem c10_idelete_null_destructor (h : Heap) (l : LinkedList) (it : Iterator)
    (hc : it.current = none) :
    i_delete h l it = .ok (h, l, it, NULL, []) ∧ destructor NULL = [] := by
  constructor
  · simp [i_delete, i_remove, hc, destructor, NULL]
  · simp [destructor, NULL]

/-- Witness for C10 at a concrete input: a fresh iterator over `[10, 20]`
(no advance yet, so no pending removal). -/
theorem c10_idelete_null_destructor_witness :
    i_delete twoHeap twoList (l_iterator twoList) =
      .ok (twoHeap, twoList, l_iterator twoList, NULL, []) ∧
    destructor NULL = [] :=
  c10_idelete_null_destructor twoHeap twoList (l_iterator twoList) rfl

theorem specFirstMatchIndex_no_match (P : Val → Bool) (vs : List Val)
    (hall : ∀ v ∈ vs, P v = false) : specFirstMatchIndex P vs = -1 := by
  induction vs with
  | nil => rfl
  | cons v vs ih =>
    simp [specFirstMatchIndex, hall v (by simp),
      ih (fun u hu => hall u (by simp [hu]))]

theorem specLastMatchIndex_no_match (P : Val → Bool) (vs : List Val)
    (hall : ∀ v ∈ vs, P v = false) : specLastMatchIndex P vs = -1 := by
  induction vs with
  | nil => rfl
  | cons v vs ih =>
    simp [specLastMatchIndex, hall v (by simp),
      ih (fun u hu => hall u (by simp [hu]))]

/-- C9: on a well-formed list with chain `c`, `l_findFirst` returns the
index of the first element accepted by the predicate and `l_findLast`
the index of the last one (the specification-side index functions),
and when no element is accepted both return the sentinel `-1`. -/
theorem c9_find_first_last (h : Heap) (l : LinkedList) (c : List (Addr × Val))
    (P : Val → Bool) (hwf : WF h l c) :
    l_findFirst h l P = .ok (specFirstMatchIndex P (c.map Prod.snd)) ∧
    l_findLast h l P = .ok (specLastMatchIndex P (c.map Prod.snd)) ∧
    ((∀ v ∈ c.map Prod.snd, P v = false) →
      l_findFirst h l P = .ok (-1) ∧ l_findLast h l P = .ok (-1)) := by
  obtain ⟨hw, hch, hsz, htl⟩ := hwf
  have hfu : c.length < l.size.toNat + 1 := by
    rw [hsz]
    simp
  have h1 : l_findFirst h l P = .ok (specFirstMatchIndex P (c.map Prod.snd)) := by
    simp only [l_findFirst]
    rw [findFirstLoop_ok hch (l_iterator l) (l.size.toNat + 1) rfl hfu (le_refl (-1))]
    rcases specFirstMatchIndex_cases P (c.map Prod.snd) with he | hge
    · rw [if_pos he, he]
    · rw [if_neg (by omega)]
      simp only [Except.ok.injEq, l_iterator]
      omega
  have h2 : l_findLast h l P = .ok (specLastMatchIndex P (c.map Prod.snd)) := by
    simp only [l_findLast]
    rw [findLastLoop_ok hch (l_iterator l) (l.size.toNat + 1) (-1) rfl hfu]
    rcases specLastMatchIndex_cases P (c.map Prod.snd) with he | hge
    · rw [if_pos he, he]
    · rw [if_neg (by omega)]
      simp only [Except.ok.injEq, l_iterator]
      omega
  refine ⟨h1, h2, fun hall => ⟨?_, ?_⟩⟩
  · rw [h1, specFirstMatchIndex_no_match P _ hall]
  · rw [h2, specLastMatchIndex_no_match P _ hall]

/-- The concrete list `[5, 7]` in `pairHeap` is well-formed with chain
`[(0, 5), (1, 7)]`. -/
theorem pairChainWF : WF pairHeap pairList [(0, 5), (1, 7)] := by
  refine ⟨⟨by decide, by decide⟩, ?_, by decide, by decide⟩
  exact Chain.cons (n := ⟨5, some 1⟩) rfl
    (Chain.cons (n := ⟨7, none⟩) rfl Chain.nil)

/-- Witness for C9 at a concrete input: on the list `[5, 7]`,
`findFirst (== 7)` returns index 1 and `findLast (== 5)` returns
index 0. -/
theorem c9_find_first_last_witness :
    l_findFirst pairHeap pairList (fun v => v == 7) = .ok 1 ∧
    l_findLast pairHeap pairList (fun v => v == 5) = .ok 0 :=
  ⟨((c9_find_first_last pairHeap pairList [(0, 5), (1, 7)]
      (fun v => v == 7) pairChainWF).1).trans (by rfl),
   ((c9_find_first_last pairHeap pairList [(0, 5), (1, 7)]
      (fun v => v == 5) pairChainWF).2.1).trans (by rfl)⟩

/-- C8: on a well-formed list `L` with chain `c`, `l_toArray` produces
the values of `L` in order, `l_fromArray` of that array with size
`L.size` succeeds, and the resulting list is `l_equal` to `L` (identical
sizes and pairwise identical values in order). -/
theorem c8_roundtrip_equal (h : Heap) (L : LinkedList) (c : List (Addr × Val))
    (hwf : WF h L c) :
    ∃ r : List Val × Heap × LinkedList,
      l_toArray h L = .ok r.1 ∧
      l_fromArray h r.1 L.size = .ok (r.2.1, r.2.2) ∧
      l_equal r.2.1 r.2.2 L = .ok true := by
  obtain ⟨hw, hch, hsz, htl⟩ := hwf
  have hfu : c.length < L.size.toNat + 1 := by
    rw [hsz]
    simp
  have hta : l_toArray h L = .ok (c.map Prod.snd) := by
    simp only [l_toArray]
    rw [toArrayLoop_ok hch (l_iterator L) (L.size.toNat + 1) [] rfl hfu]
    simp
  have hwf0 : WF h l_create [] := ⟨hw, Chain.nil, by simp [l_create], by simp [l_create]⟩
  obtain ⟨q, hokq, hwfq, hvalsq, hframeq, hfreshq, hregq⟩ :=
    addArrayLoop_ok (c.map Prod.snd) ((c.map Prod.snd).length + 1) 0 h l_create []
      hwf0 (le_refl 0) (by omega)
  have hsz2 : L.size = (((c.map Prod.snd).length : Nat) : Int) := by
    rw [hsz]
    simp
  have hfrom : l_fromArray h (c.map Prod.snd) L.size = .ok (q.1, q.2.1) := by
    simp only [l_fromArray, l_addArray]
    rw [hsz2]
    simpa using hokq
  have hveq : q.2.2.map Prod.snd = c.map Prod.snd := by simpa using hvalsq
  obtain ⟨hwq, hchq, hszq, htlq⟩ := hwfq
  have hchL : Chain q.1 L.head c :=
    chain_mono hch (fun p hp =>
      hframeq p.1 (chain_lt_fresh hw hch p hp) (by simp))
  have hlen : q.2.2.length = c.length := by
    have := congrArg List.length hveq
    simpa using this
  have hinit : (q.2.1.size == L.size) = true := by
    rw [hszq, hsz, hlen]
    simp
  have heq : l_equal q.1 q.2.1 L = .ok true := by
    simp only [l_equal]
    rw [hinit]
    exact equalLoop_ok hchq hchL (l_iterator q.2.1) (l_iterator L)
      (q.2.1.size.toNat + 1) rfl rfl hveq (by rw [hszq]; simp)
  exact ⟨(c.map Prod.snd, q.1, q.2.1), hta, hfrom, heq⟩

/-- Witness for C8 at a concrete input: the round trip on the
two-element list `[5, 7]`. -/
theorem c8_roundtrip_equal_witness :
    ∃ r : List Val × Heap × LinkedList,
      l_toArray pairHeap pairList = .ok r.1 ∧
      l_fromArray pairHeap r.1 pairList.size = .ok (r.2.1, r.2.2) ∧
      l_equal r.2.1 r.2.2 pairList = .ok true :=
  c8_roundtrip_equal pairHeap pairList [(0, 5), (1, 7)] pairChainWF

end LinkedListC
